import Mathlib

/-!
Shallow embedding of the gorror code generator (src/gorror.go).

Strings are modelled as `List Char` (Go strings and rune slices); the case
mapping functions model unicode.ToUpper and unicode.ToLower on the ASCII
range, which covers every identifier and literal appearing in the claims.
Literal brace characters are written with the escapes \x7b and \x7d.
-/

set_option maxRecDepth 40000

namespace Gorror

/-- Go strings.HasPrefix, via List.isPrefixOf. -/
def hasPfx (pfx s : List Char) : Bool := pfx.isPrefixOf s

/-- Go strings.TrimSuffix: removes one trailing copy of the suffix when present. -/
def trimSuffix (s sfx : List Char) : List Char :=
  if sfx.isSuffixOf s then s.take (s.length - sfx.length) else s

/-- Go strings.Replace(s, old, new, 1): replaces the first occurrence of
the pattern; an empty pattern matches at the start of the string. -/
def replaceFirst (pat rep : List Char) : List Char → List Char
  | [] => if pat.isEmpty then rep else []
  | c :: cs =>
    if pat.isPrefixOf (c :: cs) then rep ++ (c :: cs).drop pat.length
    else c :: replaceFirst pat rep cs

/-- Comma-join, modelling the emission loops that print ", " between items. -/
def joinComma : List (List Char) → List Char
  | [] => []
  | [x] => x
  | x :: y :: r => x ++ (',' :: ' ' :: joinComma (y :: r))

/-- Go strings.isSeparator, restricted to the ASCII range (non-ASCII runes
do not occur in the identifiers this development is about; they are
modelled as non-separators, matching Go for non-ASCII letters). -/
def goIsSeparator (c : Char) : Bool := c.val ≤ 0x7f && !(c.isAlphanum || c = '_')

/-- Helper for stringsTitle: carries the previous rune. -/
def stringsTitleAux : Char → List Char → List Char
  | _, [] => []
  | prev, c :: cs =>
    (if goIsSeparator prev then c.toUpper else c) :: stringsTitleAux c cs

/-- Go strings.Title: maps every rune that follows a separator (the initial
previous rune being a space) to its title case; ToTitle is modelled by
Char.toUpper (they agree on ASCII, and non-letters are unchanged). -/
def stringsTitle (s : List Char) : List Char := stringsTitleAux ' ' s

/-- Character class of the first capture group of tmplRE:
[A-Za-z0-9_\.\[\]] (accessor expressions). -/
def isAccChar (c : Char) : Bool :=
  c.isAlphanum || c = '_' || c = '.' || c = '[' || c = ']'

/-- Character class of the second capture group of tmplRE (after the
optional star): [A-Za-z0-9_\.] (type expressions). -/
def isTypChar (c : Char) : Bool := c.isAlphanum || c = '_' || c = '.'

/-- Character class of the third capture group of tmplRE (after the
percent sign): [A-Za-z0-9#\.\+] (format verbs). -/
def isVerbChar (c : Char) : Bool := c.isAlphanum || c = '#' || c = '.' || c = '+'

/-- One placeholder match of tmplRE: the three captured groups. The type
group keeps its optional leading star; the verb group keeps its leading
percent sign, exactly as the Go submatches do. -/
structure Token where
  acc : List Char
  typ : List Char
  verb : List Char
deriving DecidableEq, Repr

/-- The full matched text (match[0]): \x7b\x7bacc typ verb\x7d\x7d. -/
def Token.full (t : Token) : List Char :=
  '\x7b' :: '\x7b' :: (t.acc ++ ' ' :: t.typ ++ ' ' :: t.verb ++ ['\x7d', '\x7d'])

/-- Last stage of matching tmplRE at the head of the input: the space, the
percent sign, the verb run and the closing braces. -/
def matchVerbPart (acc ty : List Char) : List Char → Option (Token × List Char)
  | ' ' :: '%' :: r4 =>
    if r4.takeWhile isVerbChar = [] then none
    else
      match r4.dropWhile isVerbChar with
      | '\x7d' :: '\x7d' :: r6 => some (⟨acc, ty, '%' :: r4.takeWhile isVerbChar⟩, r6)
      | _ => none
  | _ => none

/-- Middle stage: the type run after the optional star. -/
def matchTypePart (acc star r2 : List Char) : Option (Token × List Char) :=
  if r2.takeWhile isTypChar = [] then none
  else matchVerbPart acc (star ++ r2.takeWhile isTypChar) (r2.dropWhile isTypChar)

/-- The optional star of the type group. -/
def matchAfterSpace (acc r2 : List Char) : Option (Token × List Char) :=
  if r2.head? = some '*' then matchTypePart acc ['*'] r2.tail
  else matchTypePart acc [] r2

/-- First stage after the opening braces: the accessor run and its space. -/
def matchAfterBraces (r : List Char) : Option (Token × List Char) :=
  if r.takeWhile isAccChar = [] then none
  else
    match r.dropWhile isAccChar with
    | ' ' :: r2 => matchAfterSpace (r.takeWhile isAccChar) r2
    | _ => none

/-- Matching of tmplRE anchored at the head of the input. The regex
classes are disjoint from the delimiters that follow them, so greedy
matching is maximal-munch and needs no backtracking; this function is the
deterministic equivalent. Returns the token and the remaining input. -/
def matchTokenAt : List Char → Option (Token × List Char)
  | '\x7b' :: '\x7b' :: rest => matchAfterBraces rest
  | _ => none

/-- Well-formedness of a token produced by the matcher: the shapes the
three capture groups of tmplRE guarantee. -/
def Token.WF (t : Token) : Prop :=
  t.acc ≠ [] ∧ (∀ c ∈ t.acc, isAccChar c = true) ∧
  (∃ star core, (star = ([] : List Char) ∨ star = ['*']) ∧ core ≠ [] ∧
    (∀ c ∈ core, isTypChar c = true) ∧ t.typ = star ++ core) ∧
  (∃ vs, vs ≠ ([] : List Char) ∧ (∀ c ∈ vs, isVerbChar c = true) ∧ t.verb = '%' :: vs)

/-- Fuelled scan for findAll. Each step consumes at least one character,
so fuel equal to the input length is never exhausted. -/
def findAllF : Nat → List Char → List Token
  | 0, _ => []
  | n + 1, cs =>
    match matchTokenAt cs with
    | some (t, rest) => t :: findAllF n rest
    | none =>
      match cs with
      | [] => []
      | _ :: cs' => findAllF n cs'

/-- All matches of tmplRE in the input, in order: the scan of
FindAllStringSubmatch, trying each position left to right and resuming
after each match. -/
def findAll (cs : List Char) : List Token := findAllF cs.length cs

/-- The fragment of the go/ast expression type relevant to findExprRoot:
selector nodes, index nodes, identifiers, and every other node kind. -/
inductive GoExpr where
  | ident (name : List Char)
  | selector (x : GoExpr) (sel : List Char)
  | index (x : GoExpr) (idx : List Char)
  | other
deriving DecidableEq, Repr

/-- findExprRoot: walks selector and index nodes down to their operand and
returns the identifier reached, or none for any other node kind (the
source loop returns nil in its default case). -/
def findExprRoot : GoExpr → Option (List Char)
  | .selector x _ => findExprRoot x
  | .index x _ => findExprRoot x
  | .ident n => some n
  | .other => none

/-- WrapMode, with the three constants of the source in declaration order. -/
inductive WrapMode where
  | OptWrap
  | NoWrap
  | MustWrap
deriving DecidableEq, Repr

/-- Field, as in the source: name is the root identifier of the accessor,
typ the type group, fmt the format verb, val the full accessor text. -/
structure Field where
  name : List Char
  typ : List Char
  fmt : List Char
  val : List Char
deriving DecidableEq, Repr

/-- ParsedTemplate: wrap mode, fields in match order, residual format string. -/
structure ParsedTemplate where
  wrap : WrapMode
  fields : List Field
  fmt : List Char
deriving DecidableEq, Repr

/-- The two fatal conditions of parseTemplate (log.Fatal aborts the run):
the accessor text does not parse as an expression, or the parsed
expression has no identifier root. -/
inductive Fatal where
  | parseError (acc : List Char)
  | noRoot (acc : List Char)
deriving DecidableEq, Repr

/-- The wrap-mode prefix switch of parseTemplate: "wrap:" selects MustWrap
and is trimmed, otherwise "nowrap:" selects NoWrap and is trimmed,
otherwise the mode stays OptWrap and the template is unchanged. -/
def stripWrap (template : List Char) : WrapMode × List Char :=
  if hasPfx ("wrap:".data) template then
    (.MustWrap, template.drop ("wrap:".data.length))
  else if hasPfx ("nowrap:".data) template then
    (.NoWrap, template.drop ("nowrap:".data.length))
  else (.OptWrap, template)

/-- The loop body of parseTemplate over the matches: the expression parser
pe stands for parser.ParseExpr (external to this repository); a none
result models a parse error. Each iteration resolves the root identifier,
aborting the run on failure, replaces the first occurrence of the matched
text by the bare verb, and appends the field. -/
def processMatches (pe : List Char → Option GoExpr) :
    List Token → List Field → List Char → Except Fatal (List Field × List Char)
  | [], fields, tmplStr => .ok (fields, tmplStr)
  | t :: ts, fields, tmplStr =>
    match pe t.acc with
    | none => .error (.parseError t.acc)
    | some e =>
      match findExprRoot e with
      | none => .error (.noRoot t.acc)
      | some root =>
        processMatches pe ts (fields ++ [⟨root, t.typ, t.verb, t.acc⟩])
          (replaceFirst t.full t.verb tmplStr)

/-- parseTemplate: strip the wrap prefix, find all placeholder matches,
then run the loop; any fatal condition aborts with no ParsedTemplate. -/
def parseTemplate (pe : List Char → Option GoExpr) (template : List Char) :
    Except Fatal ParsedTemplate :=
  let (wrap, tmpl) := stripWrap template
  match processMatches pe (findAll tmpl) [] tmpl with
  | .error f => .error f
  | .ok (fields, fmtStr) => .ok ⟨wrap, fields, fmtStr⟩

/-- The generator configuration and scan results (the buffer of the source
struct is modelled functionally by the emission functions below). -/
structure Generator where
  typeName : List Char
  compatIs : Bool
  makePub : Bool
  specSuffix : List Char
  imports : List (List Char)
  pkgName : List Char

/-- ErrorSpec: constant declaration name and its template string. -/
structure ErrorSpec where
  name : List Char
  template : List Char

/-- Generator.structName. The source unconditionally reads the first rune
of the spec name, so the empty name has no defined result (index panic),
modelled by none. -/
def structName? (g : Generator) (specName : List Char) : Option (List Char) :=
  match specName with
  | [] => none
  | r0 :: rest =>
    some ((if g.makePub then r0.toUpper else r0.toLower) ::
      (if g.specSuffix.length > 0 then trimSuffix rest g.specSuffix else rest))

/-- The constructor name printed by generate:
constPrefix followed by strings.Title of the struct name. -/
def constructorName (g : Generator) (structName : List Char) : List Char :=
  (if g.makePub then "New".data else "new".data) ++ stringsTitle structName

/-- Lines 264-272 of the source: the struct declaration, with the embedded
_errWrap member exactly when the wrap mode is not NoWrap. -/
def emitStructDecl (s : List Char) (t : ParsedTemplate) : List Char :=
  "type ".data ++ s ++ " struct \x7b\n".data ++
  (if t.wrap ≠ WrapMode.NoWrap then "\t_errWrap\n".data else []) ++
  (t.fields.flatMap fun f => '\t' :: (f.name ++ ' ' :: f.typ ++ ['\n'])) ++
  "\x7d\n\n".data

/-- Lines 274-309 of the source: the constructor. The parameter loop joins
the fields with ", "; with MustWrap one trailing "err error" parameter is
added; the body initializer starts with the _errWrap value for OptWrap and
MustWrap and then lists the field names. -/
def emitConstructor (g : Generator) (s : List Char) (t : ParsedTemplate) : List Char :=
  "func ".data ++ constructorName g s ++ ['('] ++
  joinComma (t.fields.map fun f => f.name ++ ' ' :: f.typ) ++
  (if t.wrap = WrapMode.MustWrap then
    (if t.fields.length > 0 then ", ".data else []) ++ "err error".data
   else []) ++
  ") *".data ++ s ++ " \x7b\n\treturn &".data ++ s ++ ['\x7b'] ++
  (if t.wrap = WrapMode.MustWrap ∨ t.wrap = WrapMode.OptWrap then
    (if t.wrap = WrapMode.MustWrap then "_errWrap\x7berr\x7d".data
     else "_errWrap\x7bnil\x7d".data) ++
    (if t.fields.length > 0 then ", ".data else [])
   else []) ++
  joinComma (t.fields.map fun f => f.name) ++
  "\x7d\n\x7d\n\n".data

/-- Lines 311-340 of the source: the Error method. OptWrap emits the
runtime branch on cause presence; NoWrap the plain Sprintf; MustWrap the
Sprintf with the cause appended unconditionally. -/
def emitErrorMethod (s : List Char) (t : ParsedTemplate) : List Char :=
  "func (e *".data ++ s ++ ") Error() string \x7b\n".data ++
  (match t.wrap with
   | .OptWrap =>
     "\tif e.cause == nil \x7b\n\t\treturn fmt.Sprintf(\"".data ++ t.fmt ++ ['\"'] ++
     (t.fields.flatMap fun f => ", e.".data ++ f.val) ++
     ")\n\t\x7d\n\treturn fmt.Sprintf(\"".data ++ t.fmt ++ ": %v\", ".data ++
     (t.fields.flatMap fun f => "e.".data ++ f.val ++ ", ".data) ++
     "e.cause)\n".data
   | .NoWrap =>
     "\treturn fmt.Sprintf(\"".data ++ t.fmt ++ ['\"'] ++
     (t.fields.flatMap fun f => ", e.".data ++ f.val) ++
     ")\n".data
   | .MustWrap =>
     "\treturn fmt.Sprintf(\"".data ++ t.fmt ++ ": %v\", ".data ++
     (t.fields.flatMap fun f => "e.".data ++ f.val ++ ", ".data) ++
     "e.cause)\n".data) ++
  "\x7d\n".data

/-- Lines 342-350 of the source: the Wrap method, emitted exactly when the
wrap mode is not NoWrap. -/
def emitWrapMethod (s : List Char) (w : WrapMode) : List Char :=
  if w ≠ WrapMode.NoWrap then
    "\nfunc (e *".data ++ s ++
    ") Wrap(cause error) error \x7b\n\te.cause = cause\n\treturn e\n\x7d\n".data
  else []

/-- Lines 352-357 of the source: the Is method; with compatIs the
parameter type is error, otherwise the sentinel type. -/
def emitIsMethod (g : Generator) (s specName : List Char) : List Char :=
  if g.compatIs then
    "\nfunc (*".data ++ s ++ ") Is(e error) bool \x7b return e == ".data ++
    specName ++ " \x7d\n\n".data
  else
    "\nfunc (*".data ++ s ++ ") Is(e ".data ++ g.typeName ++
    ") bool \x7b return e == ".data ++ specName ++ " \x7d\n\n".data

/-- The possible aborts of generate for one spec: the index panic of
structName on an empty name, or a fatal condition of parseTemplate. -/
inductive GenError where
  | emptyName
  | template (f : Fatal)
deriving DecidableEq, Repr

/-- Generator.generate for one spec: the five declaration groups in the
fixed order of the source. -/
def generate (pe : List Char → Option GoExpr) (g : Generator) (spec : ErrorSpec) :
    Except GenError (List Char) :=
  match structName? g spec.name with
  | none => .error .emptyName
  | some s =>
    match parseTemplate pe spec.template with
    | .error f => .error (.template f)
    | .ok t =>
      .ok (emitStructDecl s t ++ emitConstructor g s t ++ emitErrorMethod s t ++
        emitWrapMethod s t.wrap ++ emitIsMethod g s spec.name)

/-- Lexicographic order on strings by rune value (the order of Go
sort.Strings on the ASCII texts in scope). -/
def strLt : List Char → List Char → Bool
  | [], [] => false
  | [], _ :: _ => true
  | _ :: _, [] => false
  | x :: xs, y :: ys => if x = y then strLt xs ys else decide (x < y)

def insertStr (x : List Char) : List (List Char) → List (List Char)
  | [] => [x]
  | y :: ys => if strLt x y then x :: y :: ys else y :: insertStr x ys

/-- Sorting model for sort.Strings (insertion sort; any correct sort is an
adequate model of the library call). -/
def sortStrings : List (List Char) → List (List Char)
  | [] => []
  | x :: xs => insertStr x (sortStrings xs)

/-- The %q rendering of an import path (import paths contain no characters
needing escapes, so quoting is plain). -/
def quoteStr (s : List Char) : List Char := '\"' :: (s ++ ['\"'])

/-- The final section of the header, lines 245-256 of the source: with
compatIs a stub Error method on the sentinel type that panics, otherwise
the IsIn chain-search method on the sentinel type. -/
def headerIsSection (g : Generator) : List Char :=
  if g.compatIs then
    "func (".data ++ g.typeName ++
    ") Error() string \x7b panic(\"Should not be called\") \x7d\n\n".data
  else
    "func (e ".data ++ g.typeName ++
    ") IsIn(err error) bool \x7b\n\tvar ei interface \x7b Is(".data ++ g.typeName ++
    ") bool; Unwrap() error \x7d\n\tif errors.As(err, &ei) \x7b\n\t\tif ei.Is(e) \x7b return true \x7d\n\t\treturn e.IsIn(ei.Unwrap())\n\t\x7d\n\treturn false\x7d".data ++
    "\n\n".data

/-- Generator.header, lines 229-257 of the source: package clause, sorted
imports (the source appends "fmt" and "errors" to the configured imports),
the shared _errWrap unit, and the compatIs-dependent section. -/
def header (g : Generator) : List Char :=
  "// Errors generated by Gorror; DO NOT EDIT.\n\npackage ".data ++ g.pkgName ++
  "\n\n".data ++ "import (\n".data ++
  ((sortStrings (g.imports ++ ["fmt".data, "errors".data])).flatMap fun imp =>
    '\t' :: (quoteStr imp ++ ['\n'])) ++
  ")\n\n".data ++
  "type _errWrap struct\x7b cause error \x7d\n".data ++
  "func (w *_errWrap) Unwrap() error \x7b return w.cause \x7d\n\n".data ++
  headerIsSection g

/-- Modelled from the spec: the residual format string described by the
claims, namely the template text with every matched placeholder token
replaced in place by its bare format verb and every other character
preserved unchanged. Used to compare with the replacement loop of
parseTemplate. -/
def substInlineF : Nat → List Char → List Char
  | 0, _ => []
  | n + 1, cs =>
    match matchTokenAt cs with
    | some (t, rest) => t.verb ++ substInlineF n rest
    | none =>
      match cs with
      | [] => []
      | c :: cs' => c :: substInlineF n cs'

def substInline (cs : List Char) : List Char := substInlineF cs.length cs

/-- Side condition for the substitution-fidelity statement: every
character of the template outside the matched tokens differs from the
opening brace (every open brace of the template belongs to a matched
placeholder). -/
def scanCleanF : Nat → List Char → Bool
  | 0, _ => true
  | n + 1, cs =>
    match matchTokenAt cs with
    | some (_, rest) => scanCleanF n rest
    | none =>
      match cs with
      | [] => true
      | c :: cs' => (c != '\x7b') && scanCleanF n cs'

def scanClean (cs : List Char) : Bool := scanCleanF cs.length cs

/-- The accumulated effect of the replacement statements of the
parseTemplate loop: for each match in order, the first occurrence of its
full text is replaced by its verb. -/
def applyRepl (s : List Char) (ts : List Token) : List Char :=
  ts.foldl (fun acc t => replaceFirst t.full t.verb acc) s

/-! Claim-side definitions, modelled from the wording of the spec. -/

/-- Identifier start character (Go identifiers, ASCII range). -/
def isIdentStart (c : Char) : Bool := c.isAlpha || c = '_'

/-- Identifier continuation character. -/
def isIdentChar (c : Char) : Bool := c.isAlphanum || c = '_'

/-- States of the accessor-grammar automaton. -/
inductive AccState where
  | start
  | insideId
  | afterDot
  | idxOpen
  | idxDigits
  | afterSeg
  | dead
deriving DecidableEq, Repr

/-- Transition of the accessor-grammar automaton. -/
def accStep : AccState → Char → AccState
  | .start, c => if isIdentStart c then .insideId else .dead
  | .insideId, c =>
    if isIdentChar c then .insideId
    else if c = '.' then .afterDot
    else if c = '[' then .idxOpen
    else .dead
  | .afterDot, c => if isIdentStart c then .insideId else .dead
  | .idxOpen, c => if c.isDigit then .idxDigits else .dead
  | .idxDigits, c =>
    if c.isDigit then .idxDigits
    else if c = ']' then .afterSeg
    else .dead
  | .afterSeg, c =>
    if c = '.' then .afterDot
    else if c = '[' then .idxOpen
    else .dead
  | .dead, _ => .dead

/-- Accepting states: a completed identifier or a completed segment. -/
def accAccept : AccState → Bool
  | .insideId => true
  | .afterSeg => true
  | _ => false

/-- Modelled from the spec: the accessor grammar
ident(dot ident | bracket digits bracket)* of the placeholder syntax
contract, as a deterministic automaton over the string. -/
def accessorB (s : List Char) : Bool := accAccept (s.foldl accStep .start)

/-- States of the type-grammar automaton (after the optional star). -/
inductive TypState where
  | start
  | firstId
  | afterDot
  | secondId
  | dead
deriving DecidableEq, Repr

/-- Transition of the type-grammar automaton. -/
def typStep : TypState → Char → TypState
  | .start, c => if isIdentStart c then .firstId else .dead
  | .firstId, c =>
    if isIdentChar c then .firstId
    else if c = '.' then .afterDot
    else .dead
  | .afterDot, c => if isIdentStart c then .secondId else .dead
  | .secondId, c => if isIdentChar c then .secondId else .dead
  | .dead, _ => .dead

/-- Accepting states of the type grammar. -/
def typAccept : TypState → Bool
  | .firstId => true
  | .secondId => true
  | _ => false

/-- The core of the type grammar: ident(dot ident | nothing). -/
def typeCoreB (s : List Char) : Bool := typAccept (s.foldl typStep .start)

/-- Modelled from the spec: the type grammar star? ident(dot ident | nothing)
of the placeholder syntax contract. -/
def typeB (s : List Char) : Bool :=
  if s.head? = some '*' then typeCoreB s.tail else typeCoreB s

/-- Modelled from the spec: the verb grammar, a percent sign followed by a
nonempty run over [A-Za-z0-9#.+]. -/
def verbB : List Char → Bool
  | c :: vs => (c = '%') && !vs.isEmpty && vs.all isVerbChar
  | [] => false

/-- Modelled from the spec claim for the constructor name: the fixed
prefix concatenated with the declared-type name, with the first rune of
the whole concatenation upper-cased. -/
def constructorNameClaimed (g : Generator) (structName : List Char) : List Char :=
  match (if g.makePub then "New".data else "new".data) ++ structName with
  | [] => []
  | c :: cs => c.toUpper :: cs

/-- A concrete instantiation of the external expression parser, used for
closed instances: it returns a bare identifier node, which is exactly
what parser.ParseExpr produces on the plain-identifier accessors appearing
in those instances. -/
def peRoot : List Char → Option GoExpr := fun s => some (.ident s)

/-- A concrete instantiation of the external expression parser that fails
on every input, used for closed instances of the fatal paths. -/
def peNone : List Char → Option GoExpr := fun _ => none

/-- Relation between a match and the field built from it by the loop. -/
def FieldOfMatch (pe : List Char → Option GoExpr) (m : Token) (f : Field) : Prop :=
  f.typ = m.typ ∧ f.fmt = m.verb ∧ f.val = m.acc ∧
  ∃ e, pe m.acc = some e ∧ findExprRoot e = some f.name

/-- The outcome of Generator.format: whether warnings were logged and the
returned text, none standing for the fatal abort. -/
structure FormatOutcome where
  warned : Bool
  result : Option (List Char)
deriving DecidableEq, Repr

/-- Generator.format, lines 442-452 of the source. The call to
format.Source is external (go/format); its outcome is supplied as the
returned text src and the error flag errPresent. On error the source logs
two warnings, then aborts fatally when src is empty, otherwise returns
src; without error src is returned silently. The buffer contents appear
only inside the fatal log text and do not affect the outcome. -/
def gformat (src : List Char) (errPresent : Bool) : FormatOutcome :=
  if errPresent then
    if src.length = 0 then ⟨true, none⟩ else ⟨true, some src⟩
  else ⟨false, some src⟩

/-- Substring test used by closed statements about the emitted text. -/
def containsSub (pat : List Char) : List Char → Bool
  | [] => pat.isEmpty
  | c :: cs => pat.isPrefixOf (c :: cs) || containsSub pat cs

theorem matchVerbPart_split {acc ty r3 : List Char} {t : Token} {rest : List Char}
    (h : matchVerbPart acc ty r3 = some (t, rest)) :
    ∃ vs, vs ≠ [] ∧ (∀ c ∈ vs, isVerbChar c = true) ∧
      t = ⟨acc, ty, '%' :: vs⟩ ∧
      r3 = ' ' :: '%' :: (vs ++ '\x7d' :: '\x7d' :: rest) := by
  unfold matchVerbPart at h
  split at h
  case h_2 => exact absurd h (by simp)
  case h_1 r4 =>
    split at h
    · exact absurd h (by simp)
    next hvb =>
      split at h
      case h_2 => exact absurd h (by simp)
      case h_1 r6 hdrop =>
        simp only [Option.some.injEq, Prod.mk.injEq] at h
        obtain ⟨ht, hrest⟩ := h
        refine ⟨r4.takeWhile isVerbChar, hvb, ?_, ht.symm, ?_⟩
        · intro c hc
          exact List.mem_takeWhile_imp hc
        · have hsp : r4.takeWhile isVerbChar ++ r4.dropWhile isVerbChar = r4 :=
            List.takeWhile_append_dropWhile isVerbChar r4
          rw [← hrest]
          conv_lhs => rw [← hsp, hdrop]

theorem matchTypePart_split {acc star r2 : List Char} {t : Token} {rest : List Char}
    (h : matchTypePart acc star r2 = some (t, rest)) :
    ∃ core r3, core ≠ [] ∧ (∀ c ∈ core, isTypChar c = true) ∧
      r2 = core ++ r3 ∧ matchVerbPart acc (star ++ core) r3 = some (t, rest) := by
  unfold matchTypePart at h
  split at h
  · exact absurd h (by simp)
  next hty =>
    refine ⟨r2.takeWhile isTypChar, r2.dropWhile isTypChar, hty, ?_, ?_, h⟩
    · intro x hx
      exact List.mem_takeWhile_imp hx
    · exact (List.takeWhile_append_dropWhile isTypChar r2).symm

theorem matchAfterSpace_split {acc r2 : List Char} {t : Token} {rest : List Char}
    (h : matchAfterSpace acc r2 = some (t, rest)) :
    ∃ star r2', (star = ([] : List Char) ∨ star = ['*']) ∧ r2 = star ++ r2' ∧
      matchTypePart acc star r2' = some (t, rest) := by
  unfold matchAfterSpace at h
  split at h
  next hstar =>
    cases r2 with
    | nil => simp at hstar
    | cons c r2' =>
      simp only [List.head?_cons, Option.some.injEq] at hstar
      subst hstar
      simp only [List.tail_cons] at h
      exact ⟨['*'], r2', Or.inr rfl, rfl, h⟩
  next => exact ⟨[], r2, Or.inl rfl, (List.nil_append r2).symm, h⟩

theorem matchAfterBraces_split {r : List Char} {t : Token} {rest : List Char}
    (h : matchAfterBraces r = some (t, rest)) :
    ∃ acc r2, acc ≠ [] ∧ (∀ c ∈ acc, isAccChar c = true) ∧
      r = acc ++ ' ' :: r2 ∧ matchAfterSpace acc r2 = some (t, rest) := by
  unfold matchAfterBraces at h
  split at h
  · exact absurd h (by simp)
  next hacc =>
    split at h
    case h_2 => exact absurd h (by simp)
    case h_1 r2 hdrop =>
      refine ⟨r.takeWhile isAccChar, r2, hacc, ?_, ?_, h⟩
      · intro x hx
        exact List.mem_takeWhile_imp hx
      · have hsp : r.takeWhile isAccChar ++ r.dropWhile isAccChar = r :=
          List.takeWhile_append_dropWhile isAccChar r
        rw [hdrop] at hsp
        exact hsp.symm

/-- The central splitting property of the matcher: a successful match
splits the input as the full matched text followed by the remainder, and
the captured groups satisfy the class constraints of tmplRE. -/
theorem matchTokenAt_split {cs : List Char} {t : Token} {rest : List Char}
    (h : matchTokenAt cs = some (t, rest)) :
    cs = t.full ++ rest ∧ t.WF := by
  unfold matchTokenAt at h
  split at h
  case h_2 => exact absurd h (by simp)
  case h_1 r =>
    obtain ⟨acc, r2, haccne, haccall, hr, h2⟩ := matchAfterBraces_split h
    obtain ⟨star, r2', hstar, hr2, h3⟩ := matchAfterSpace_split h2
    obtain ⟨core, r3, hcorene, hcoreall, hr2', h4⟩ := matchTypePart_split h3
    obtain ⟨vs, hvsne, hvsall, ht, hr3⟩ := matchVerbPart_split h4
    subst ht
    constructor
    · rw [Token.full]
      simp only
      rw [hr, hr2, hr2', hr3]
      simp
    · exact ⟨haccne, haccall, ⟨star, core, hstar, hcorene, hcoreall, rfl⟩,
        ⟨vs, hvsne, hvsall, rfl⟩⟩

theorem matchTokenAt_rest_length {cs : List Char} {t : Token} {rest : List Char}
    (h : matchTokenAt cs = some (t, rest)) : rest.length < cs.length := by
  obtain ⟨hsplit, -⟩ := matchTokenAt_split h
  rw [hsplit, List.length_append, Token.full]
  simp only [List.length_cons]
  omega

theorem findAllF_stable : ∀ (n m : Nat) (cs : List Char), cs.length ≤ m → m ≤ n →
    findAllF m cs = findAllF cs.length cs := by
  intro n
  induction n with
  | zero =>
    intro m cs h1 h2
    have hm : m = 0 := Nat.le_zero.1 h2
    subst hm
    have : cs = [] := List.length_eq_zero.1 (Nat.le_zero.1 h1)
    subst this
    rfl
  | succ n ih =>
    intro m cs h1 h2
    match m, cs with
    | 0, cs =>
      have : cs = [] := List.length_eq_zero.1 (Nat.le_zero.1 h1)
      subst this
      rfl
    | m' + 1, [] => rfl
    | m' + 1, c :: cs' =>
      show findAllF (m' + 1) (c :: cs') = findAllF (c :: cs').length (c :: cs')
      have hlen : (c :: cs').length = cs'.length + 1 := by simp
      rw [hlen]
      show (match matchTokenAt (c :: cs') with
            | some (t, rest) => t :: findAllF m' rest
            | none => findAllF m' cs') =
          (match matchTokenAt (c :: cs') with
            | some (t, rest) => t :: findAllF cs'.length rest
            | none => findAllF cs'.length cs')
      cases hm : matchTokenAt (c :: cs') with
      | some p =>
        obtain ⟨t, rest⟩ := p
        have hrl : rest.length < (c :: cs').length := matchTokenAt_rest_length hm
        rw [hlen] at hrl
        have e1 : findAllF m' rest = findAllF rest.length rest :=
          ih m' rest (by omega) (by omega)
        have e2 : findAllF cs'.length rest = findAllF rest.length rest :=
          ih cs'.length rest (by omega) (by simp at h1; omega)
        simp [e1, e2]
      | none =>
        have e1 : findAllF m' cs' = findAllF cs'.length cs' :=
          ih m' cs' (by simp at h1; omega) (by omega)
        have e2 : findAllF cs'.length cs' = findAllF cs'.length cs' := rfl
        simp [e1, e2]

/-! Facts about the parseTemplate loop. -/

theorem processMatches_ok_fmt (pe : List Char → Option GoExpr) :
    ∀ (ts : List Token) (fields : List Field) (s : List Char)
      (fs : List Field) (out : List Char),
    processMatches pe ts fields s = .ok (fs, out) → out = applyRepl s ts := by
  intro ts
  induction ts with
  | nil =>
    intro fields s fs out h
    cases h
    rfl
  | cons t ts ih =>
    intro fields s fs out h
    unfold processMatches at h
    split at h
    · cases h
    · split at h
      · cases h
      · exact ih _ _ _ _ h

theorem processMatches_ok_fields (pe : List Char → Option GoExpr) :
    ∀ (ts : List Token) (fields : List Field) (s : List Char)
      (fs : List Field) (out : List Char),
    processMatches pe ts fields s = .ok (fs, out) →
    ∃ newFields, fs = fields ++ newFields ∧
      List.Forall₂ (FieldOfMatch pe) ts newFields := by
  intro ts
  induction ts with
  | nil =>
    intro fields s fs out h
    cases h
    exact ⟨[], by simp, List.Forall₂.nil⟩
  | cons t ts ih =>
    intro fields s fs out h
    unfold processMatches at h
    split at h
    · cases h
    next e hpe =>
      split at h
      · cases h
      next root hr =>
        obtain ⟨nf, hfs, hrel⟩ := ih _ _ _ _ h
        refine ⟨⟨root, t.typ, t.verb, t.acc⟩ :: nf, ?_, ?_⟩
        · rw [hfs]; simp
        · exact List.Forall₂.cons ⟨rfl, rfl, rfl, e, hpe, hr⟩ hrel

theorem processMatches_error (pe : List Char → Option GoExpr) :
    ∀ (ts : List Token) (fields : List Field) (s : List Char),
    (∃ m ∈ ts, pe m.acc = none ∨ ∃ e, pe m.acc = some e ∧ findExprRoot e = none) →
    ∃ f, processMatches pe ts fields s = .error f := by
  intro ts
  induction ts with
  | nil =>
    intro fields s h
    obtain ⟨m, hm, -⟩ := h
    cases hm
  | cons t ts ih =>
    intro fields s h
    unfold processMatches
    cases hpe : pe t.acc with
    | none => exact ⟨.parseError t.acc, by simp only [hpe]⟩
    | some e =>
      cases hr : findExprRoot e with
      | none => exact ⟨.noRoot t.acc, by simp only [hpe, hr]⟩
      | some root =>
        obtain ⟨m, hm, hbad⟩ := h
        rcases List.mem_cons.1 hm with h1 | h2
        · subst h1
          rcases hbad with h3 | ⟨e', he', hr'⟩
          · rw [hpe] at h3; cases h3
          · rw [hpe] at he'
            cases he'
            rw [hr] at hr'
            cases hr'
        · obtain ⟨f, hf⟩ := ih (fields ++ [⟨root, t.typ, t.verb, t.acc⟩])
            (replaceFirst t.full t.verb s) ⟨m, h2, hbad⟩
          exact ⟨f, by simp only [hpe, hr]; exact hf⟩

/-! Maximal-munch runs stop exactly at the first non-class character. -/

theorem takeWhile_append_stop {p : Char → Bool} {A : List Char} {c : Char}
    (hA : ∀ a ∈ A, p a = true) (hc : p c = false) (r : List Char) :
    (A ++ c :: r).takeWhile p = A ∧ (A ++ c :: r).dropWhile p = c :: r := by
  induction A with
  | nil => simp [List.takeWhile_cons, List.dropWhile_cons, hc]
  | cons a A ih =>
    have ha : p a = true := hA a (by simp)
    have ih2 := ih (fun x hx => hA x (by simp [hx]))
    simp [List.takeWhile_cons, List.dropWhile_cons, ha, ih2.1, ih2.2]

/-- A well-formed token placed at the head of the input is always matched,
with exactly its own text consumed. -/
theorem matchTokenAt_full {t : Token} (h : t.WF) (k : List Char) :
    matchTokenAt (t.full ++ k) = some (t, k) := by
  obtain ⟨haccne, haccall, ⟨star, core, hstar, hcorene, hcoreall, htyp⟩,
    vs, hvsne, hvsall, hverb⟩ := h
  have hfull : t.full ++ k = '\x7b' :: '\x7b' ::
      (t.acc ++ ' ' :: (t.typ ++ ' ' :: (t.verb ++ '\x7d' :: '\x7d' :: k))) := by
    rw [Token.full]
    simp
  rw [hfull]
  show matchAfterBraces
    (t.acc ++ ' ' :: (t.typ ++ ' ' :: (t.verb ++ '\x7d' :: '\x7d' :: k))) = some (t, k)
  have hsp := takeWhile_append_stop haccall
    (by decide : isAccChar ' ' = false)
    (t.typ ++ ' ' :: (t.verb ++ '\x7d' :: '\x7d' :: k))
  rw [matchAfterBraces, hsp.1, hsp.2, if_neg haccne]
  show matchAfterSpace t.acc (t.typ ++ ' ' :: (t.verb ++ '\x7d' :: '\x7d' :: k)) = some (t, k)
  have hVerb : matchVerbPart t.acc t.typ (' ' :: (t.verb ++ '\x7d' :: '\x7d' :: k)) =
      some (t, k) := by
    rw [hverb]
    show matchVerbPart t.acc t.typ (' ' :: '%' :: (vs ++ '\x7d' :: '\x7d' :: k)) = some (t, k)
    have hspv := takeWhile_append_stop hvsall
      (by decide : isVerbChar '\x7d' = false) ('\x7d' :: k)
    rw [matchVerbPart, hspv.1, hspv.2, if_neg hvsne]
    show some (⟨t.acc, t.typ, '%' :: vs⟩, k) = some (t, k)
    rw [← hverb]
  have hTypePart : ∀ tail : List Char,
      matchTypePart t.acc star (core ++ ' ' :: tail) =
        matchVerbPart t.acc (star ++ core) (' ' :: tail) := by
    intro tail
    have hspc := takeWhile_append_stop hcoreall
      (by decide : isTypChar ' ' = false) tail
    rw [matchTypePart, hspc.1, hspc.2, if_neg hcorene]
  rcases hstar with hs0 | hs1
  · subst hs0
    rw [htyp, List.nil_append]
    have hhead : (core ++ ' ' :: (t.verb ++ '\x7d' :: '\x7d' :: k)).head? ≠ some '*' := by
      match core, hcorene with
      | c0 :: core', _ =>
        have hc0 : isTypChar c0 = true := hcoreall c0 (by simp)
        simp only [List.cons_append, List.head?_cons]
        intro hcontra
        have hc0eq : c0 = '*' := by injection hcontra
        subst hc0eq
        simp [isTypChar] at hc0
    rw [matchAfterSpace, if_neg hhead, hTypePart, List.nil_append]
    have hv2 := hVerb
    rw [htyp, List.nil_append] at hv2
    exact hv2
  · subst hs1
    rw [htyp]
    have hhead : ((['*'] ++ core) ++ ' ' :: (t.verb ++ '\x7d' :: '\x7d' :: k)).head? =
        some '*' := by simp
    rw [matchAfterSpace, if_pos hhead]
    have htail : (((['*'] ++ core) ++ ' ' :: (t.verb ++ '\x7d' :: '\x7d' :: k))).tail =
        core ++ ' ' :: (t.verb ++ '\x7d' :: '\x7d' :: k) := by simp
    rw [htail, hTypePart]
    have hv2 := hVerb
    rw [htyp] at hv2
    exact hv2

/-! Unfolding equations for the scanning functions. The fuelled bodies are
stable once the fuel covers the input length. -/

theorem substInlineF_stable : ∀ (n m : Nat) (cs : List Char), cs.length ≤ m → m ≤ n →
    substInlineF m cs = substInlineF cs.length cs := by
  intro n
  induction n with
  | zero =>
    intro m cs h1 h2
    have hm : m = 0 := Nat.le_zero.1 h2
    subst hm
    have : cs = [] := List.length_eq_zero.1 (Nat.le_zero.1 h1)
    subst this
    rfl
  | succ n ih =>
    intro m cs h1 h2
    match m, cs with
    | 0, cs =>
      have : cs = [] := List.length_eq_zero.1 (Nat.le_zero.1 h1)
      subst this
      rfl
    | m' + 1, [] => rfl
    | m' + 1, c :: cs' =>
      show substInlineF (m' + 1) (c :: cs') = substInlineF (c :: cs').length (c :: cs')
      have hlen : (c :: cs').length = cs'.length + 1 := by simp
      rw [hlen]
      show (match matchTokenAt (c :: cs') with
            | some (t, rest) => t.verb ++ substInlineF m' rest
            | none => c :: substInlineF m' cs') =
          (match matchTokenAt (c :: cs') with
            | some (t, rest) => t.verb ++ substInlineF cs'.length rest
            | none => c :: substInlineF cs'.length cs')
      cases hm : matchTokenAt (c :: cs') with
      | some p =>
        obtain ⟨t, rest⟩ := p
        have hrl : rest.length < (c :: cs').length := matchTokenAt_rest_length hm
        rw [hlen] at hrl
        have e1 : substInlineF m' rest = substInlineF rest.length rest :=
          ih m' rest (by omega) (by omega)
        have e2 : substInlineF cs'.length rest = substInlineF rest.length rest :=
          ih cs'.length rest (by omega) (by simp at h1; omega)
        simp [e1, e2]
      | none =>
        have e1 : substInlineF m' cs' = substInlineF cs'.length cs' :=
          ih m' cs' (by simp at h1; omega) (by omega)
        simp [e1]

theorem scanCleanF_stable : ∀ (n m : Nat) (cs : List Char), cs.length ≤ m → m ≤ n →
    scanCleanF m cs = scanCleanF cs.length cs := by
  intro n
  induction n with
  | zero =>
    intro m cs h1 h2
    have hm : m = 0 := Nat.le_zero.1 h2
    subst hm
    have : cs = [] := List.length_eq_zero.1 (Nat.le_zero.1 h1)
    subst this
    rfl
  | succ n ih =>
    intro m cs h1 h2
    match m, cs with
    | 0, cs =>
      have : cs = [] := List.length_eq_zero.1 (Nat.le_zero.1 h1)
      subst this
      rfl
    | m' + 1, [] => rfl
    | m' + 1, c :: cs' =>
      show scanCleanF (m' + 1) (c :: cs') = scanCleanF (c :: cs').length (c :: cs')
      have hlen : (c :: cs').length = cs'.length + 1 := by simp
      rw [hlen]
      show (match matchTokenAt (c :: cs') with
            | some (t, rest) => scanCleanF m' rest
            | none => (c != '\x7b') && scanCleanF m' cs') =
          (match matchTokenAt (c :: cs') with
            | some (t, rest) => scanCleanF cs'.length rest
            | none => (c != '\x7b') && scanCleanF cs'.length cs')
      cases hm : matchTokenAt (c :: cs') with
      | some p =>
        obtain ⟨t, rest⟩ := p
        have hrl : rest.length < (c :: cs').length := matchTokenAt_rest_length hm
        rw [hlen] at hrl
        have e1 : scanCleanF m' rest = scanCleanF rest.length rest :=
          ih m' rest (by omega) (by omega)
        have e2 : scanCleanF cs'.length rest = scanCleanF rest.length rest :=
          ih cs'.length rest (by omega) (by simp at h1; omega)
        simp [e1, e2]
      | none =>
        have e1 : scanCleanF m' cs' = scanCleanF cs'.length cs' :=
          ih m' cs' (by simp at h1; omega) (by omega)
        simp [e1]

theorem findAll_nil : findAll [] = [] := rfl

theorem substInline_nil : substInline [] = [] := rfl

theorem scanClean_nil : scanClean [] = true := rfl

theorem matchTokenAt_cs_ne_nil {cs : List Char} {t : Token} {rest : List Char}
    (h : matchTokenAt cs = some (t, rest)) : cs ≠ [] := by
  intro hcs
  subst hcs
  simp [matchTokenAt] at h

theorem findAll_some {cs : List Char} {t : Token} {rest : List Char}
    (h : matchTokenAt cs = some (t, rest)) : findAll cs = t :: findAll rest := by
  match cs, matchTokenAt_cs_ne_nil h with
  | c :: cs', _ =>
    show findAllF (c :: cs').length (c :: cs') = t :: findAll rest
    have hlen : (c :: cs').length = cs'.length + 1 := by simp
    rw [hlen]
    show (match matchTokenAt (c :: cs') with
          | some (t, rest) => t :: findAllF cs'.length rest
          | none =>
            match c :: cs' with
            | [] => []
            | _ :: cs2 => findAllF cs'.length cs2) = t :: findAll rest
    rw [h]
    have hrl : rest.length < (c :: cs').length := matchTokenAt_rest_length h
    rw [hlen] at hrl
    show t :: findAllF cs'.length rest = t :: findAll rest
    rw [findAllF_stable cs'.length cs'.length rest (by omega) (Nat.le_refl _)]
    rfl

theorem findAll_none_cons {c : Char} {cs : List Char}
    (h : matchTokenAt (c :: cs) = none) : findAll (c :: cs) = findAll cs := by
  show findAllF (c :: cs).length (c :: cs) = findAll cs
  have hlen : (c :: cs).length = cs.length + 1 := by simp
  rw [hlen]
  show (match matchTokenAt (c :: cs) with
        | some (t, rest) => t :: findAllF cs.length rest
        | none =>
          match c :: cs with
          | [] => []
          | _ :: cs2 => findAllF cs.length cs2) = findAll cs
  rw [h]
  rfl

theorem substInline_some {cs : List Char} {t : Token} {rest : List Char}
    (h : matchTokenAt cs = some (t, rest)) :
    substInline cs = t.verb ++ substInline rest := by
  match cs, matchTokenAt_cs_ne_nil h with
  | c :: cs', _ =>
    show substInlineF (c :: cs').length (c :: cs') = t.verb ++ substInline rest
    have hlen : (c :: cs').length = cs'.length + 1 := by simp
    rw [hlen]
    show (match matchTokenAt (c :: cs') with
          | some (t, rest) => t.verb ++ substInlineF cs'.length rest
          | none =>
            match c :: cs' with
            | [] => []
            | c2 :: cs2 => c2 :: substInlineF cs'.length cs2) = t.verb ++ substInline rest
    rw [h]
    have hrl : rest.length < (c :: cs').length := matchTokenAt_rest_length h
    rw [hlen] at hrl
    show t.verb ++ substInlineF cs'.length rest = t.verb ++ substInline rest
    rw [substInlineF_stable cs'.length cs'.length rest (by omega) (Nat.le_refl _)]
    rfl

theorem substInline_none_cons {c : Char} {cs : List Char}
    (h : matchTokenAt (c :: cs) = none) :
    substInline (c :: cs) = c :: substInline cs := by
  show substInlineF (c :: cs).length (c :: cs) = c :: substInline cs
  have hlen : (c :: cs).length = cs.length + 1 := by simp
  rw [hlen]
  show (match matchTokenAt (c :: cs) with
        | some (t, rest) => t.verb ++ substInlineF cs.length rest
        | none =>
          match c :: cs with
          | [] => []
          | c2 :: cs2 => c2 :: substInlineF cs.length cs2) = c :: substInline cs
  rw [h]
  rfl

theorem scanClean_some {cs : List Char} {t : Token} {rest : List Char}
    (h : matchTokenAt cs = some (t, rest)) : scanClean cs = scanClean rest := by
  match cs, matchTokenAt_cs_ne_nil h with
  | c :: cs', _ =>
    show scanCleanF (c :: cs').length (c :: cs') = scanClean rest
    have hlen : (c :: cs').length = cs'.length + 1 := by simp
    rw [hlen]
    show (match matchTokenAt (c :: cs') with
          | some (t, rest) => scanCleanF cs'.length rest
          | none =>
            match c :: cs' with
            | [] => true
            | c2 :: cs2 => (c2 != '\x7b') && scanCleanF cs'.length cs2) = scanClean rest
    rw [h]
    have hrl : rest.length < (c :: cs').length := matchTokenAt_rest_length h
    rw [hlen] at hrl
    show scanCleanF cs'.length rest = scanClean rest
    rw [scanCleanF_stable cs'.length cs'.length rest (by omega) (Nat.le_refl _)]
    rfl

theorem scanClean_none_cons {c : Char} {cs : List Char}
    (h : matchTokenAt (c :: cs) = none) :
    scanClean (c :: cs) = ((c != '\x7b') && scanClean cs) := by
  show scanCleanF (c :: cs).length (c :: cs) = ((c != '\x7b') && scanClean cs)
  have hlen : (c :: cs).length = cs.length + 1 := by simp
  rw [hlen]
  show (match matchTokenAt (c :: cs) with
        | some (t, rest) => scanCleanF cs.length rest
        | none =>
          match c :: cs with
          | [] => true
          | c2 :: cs2 => (c2 != '\x7b') && scanCleanF cs.length cs2) =
      ((c != '\x7b') && scanClean cs)
  rw [h]
  rfl

/-! Facts about replaceFirst and applyRepl. -/

theorem replaceFirst_at_head {pat : List Char} (hne : pat ≠ []) (rep s : List Char) :
    replaceFirst pat rep (pat ++ s) = rep ++ s := by
  match pat, hne with
  | p :: ps, _ =>
    show replaceFirst (p :: ps) rep (p :: (ps ++ s)) = rep ++ s
    rw [replaceFirst]
    have hpre : (p :: ps).isPrefixOf ((p :: ps) ++ s) := by
      rw [List.isPrefixOf_iff_prefix]
      exact List.prefix_append _ _
    simp only [List.cons_append] at hpre
    rw [if_pos hpre]
    congr 1
    have hd : ((p :: ps) ++ s).drop (p :: ps).length = s := List.drop_left _ _
    simp only [List.cons_append, List.length_cons] at hd
    exact hd

theorem replaceFirst_cons_not_pfx {pat : List Char} {c : Char} {s : List Char}
    (h : ¬ pat.isPrefixOf (c :: s)) (rep : List Char) :
    replaceFirst pat rep (c :: s) = c :: replaceFirst pat rep s := by
  rw [replaceFirst, if_neg h]

theorem replaceFirst_append_clean {pre : List Char} {tl : List Char}
    (hpre : ∀ x ∈ pre, x ≠ '\x7b') (rep s : List Char) :
    replaceFirst ('\x7b' :: tl) rep (pre ++ s) =
      pre ++ replaceFirst ('\x7b' :: tl) rep s := by
  induction pre with
  | nil => simp
  | cons c pre' ih =>
    have hc : c ≠ '\x7b' := hpre c (by simp)
    have hnp : ¬ ('\x7b' :: tl).isPrefixOf (c :: (pre' ++ s)) := by
      simp only [List.isPrefixOf_iff_prefix, List.cons_prefix_cons]
      intro hand
      exact hc hand.1.symm
    rw [List.cons_append, replaceFirst_cons_not_pfx hnp,
      ih (fun x hx => hpre x (by simp [hx]))]
    simp

theorem Token.full_head (t : Token) : ∃ tl, t.full = '\x7b' :: tl :=
  ⟨'\x7b' :: (t.acc ++ ' ' :: t.typ ++ ' ' :: t.verb ++ ['\x7d', '\x7d']), rfl⟩

theorem applyRepl_append_clean {pre : List Char}
    (hpre : ∀ x ∈ pre, x ≠ '\x7b') (s : List Char) (ts : List Token) :
    applyRepl (pre ++ s) ts = pre ++ applyRepl s ts := by
  induction ts generalizing s with
  | nil => rfl
  | cons t ts ih =>
    obtain ⟨tl, hfull⟩ := t.full_head
    show applyRepl (replaceFirst t.full t.verb (pre ++ s)) ts =
      pre ++ applyRepl s (t :: ts)
    have h2 : applyRepl s (t :: ts) = applyRepl (replaceFirst t.full t.verb s) ts := rfl
    rw [h2, hfull, replaceFirst_append_clean hpre, ih]

/-- Verbs produced by the matcher contain no open brace. -/
theorem verb_clean {t : Token} (h : t.WF) : ∀ x ∈ t.verb, x ≠ '\x7b' := by
  obtain ⟨-, -, -, vs, -, hall, hverb⟩ := h
  intro x hx
  rw [hverb] at hx
  rcases List.mem_cons.1 hx with h1 | h2
  · subst h1; decide
  · have := hall x h2
    intro hcontra
    subst hcontra
    simp [isVerbChar] at this

/-- Every token produced by the scan is well-formed. -/
theorem findAll_wf : ∀ (n : Nat) (cs : List Char), cs.length ≤ n →
    ∀ t ∈ findAll cs, t.WF := by
  intro n
  induction n with
  | zero =>
    intro cs hlen t ht
    have : cs = [] := List.length_eq_zero.1 (Nat.le_zero.1 hlen)
    subst this
    rw [findAll_nil] at ht
    cases ht
  | succ n ih =>
    intro cs hlen t ht
    match hm : matchTokenAt cs with
    | some (t', rest) =>
      rw [findAll_some hm] at ht
      obtain ⟨hsplit, hwf⟩ := matchTokenAt_split hm
      rcases List.mem_cons.1 ht with h1 | h2
      · subst h1; exact hwf
      · have hr : rest.length ≤ n := by
          have := matchTokenAt_rest_length hm
          omega
        exact ih rest hr t h2
    | none =>
      match cs with
      | [] => rw [findAll_nil] at ht; cases ht
      | c :: cs' =>
        rw [findAll_none_cons hm] at ht
        exact ih cs' (by simp at hlen; omega) t ht

/-- The replacement loop of parseTemplate computes the in-place
substitution whenever every open brace of the template belongs to a
matched token (the scanClean condition). -/
theorem applyRepl_eq_substInline : ∀ (n : Nat) (cs : List Char), cs.length ≤ n →
    scanClean cs = true → applyRepl cs (findAll cs) = substInline cs := by
  intro n
  induction n with
  | zero =>
    intro cs hlen _
    have : cs = [] := List.length_eq_zero.1 (Nat.le_zero.1 hlen)
    subst this
    rw [findAll_nil, substInline_nil]
    rfl
  | succ n ih =>
    intro cs hlen hclean
    match hm : matchTokenAt cs with
    | some (t, rest) =>
      obtain ⟨hsplit, hwf⟩ := matchTokenAt_split hm
      have hfullne : t.full ≠ [] := by
        obtain ⟨tl, hfull⟩ := t.full_head
        simp [hfull]
      have hrestlen : rest.length ≤ n := by
        have := matchTokenAt_rest_length hm
        omega
      rw [findAll_some hm, substInline_some hm]
      have step1 : applyRepl cs (t :: findAll rest) =
          applyRepl (replaceFirst t.full t.verb cs) (findAll rest) := rfl
      rw [step1, hsplit, replaceFirst_at_head hfullne,
        applyRepl_append_clean (verb_clean hwf),
        ih rest hrestlen (by rw [← scanClean_some hm]; exact hclean)]
    | none =>
      match cs with
      | [] => rw [findAll_nil, substInline_nil]; rfl
      | c :: cs' =>
        rw [findAll_none_cons hm, substInline_none_cons hm]
        have hcc : ((c != '\x7b') && scanClean cs') = true := by
          rw [← scanClean_none_cons hm]; exact hclean
        simp only [Bool.and_eq_true, bne_iff_ne] at hcc
        obtain ⟨hc, hclean'⟩ := hcc
        have : applyRepl ([c] ++ cs') (findAll cs') = [c] ++ applyRepl cs' (findAll cs') :=
          applyRepl_append_clean (by simpa using hc) cs' (findAll cs')
        simp only [List.singleton_append] at this
        rw [this, ih cs' (by simp at hlen; omega) hclean']

/-! Character-class inclusions between the claimed grammar and the regex
classes. -/

theorem identStart_accChar {c : Char} (h : isIdentStart c = true) : isAccChar c = true := by
  simp only [isIdentStart, Bool.or_eq_true, decide_eq_true_eq] at h
  simp only [isAccChar, Char.isAlphanum, Bool.or_eq_true, decide_eq_true_eq]
  tauto

theorem identChar_accChar {c : Char} (h : isIdentChar c = true) : isAccChar c = true := by
  simp only [isIdentChar, Bool.or_eq_true, decide_eq_true_eq] at h
  simp only [isAccChar, Bool.or_eq_true, decide_eq_true_eq]
  tauto

theorem digit_accChar {c : Char} (h : c.isDigit = true) : isAccChar c = true := by
  simp only [isAccChar, Char.isAlphanum, Bool.or_eq_true]
  tauto

theorem identStart_typChar {c : Char} (h : isIdentStart c = true) : isTypChar c = true := by
  simp only [isIdentStart, Bool.or_eq_true, decide_eq_true_eq] at h
  simp only [isTypChar, Char.isAlphanum, Bool.or_eq_true, decide_eq_true_eq]
  tauto

theorem identChar_typChar {c : Char} (h : isIdentChar c = true) : isTypChar c = true := by
  simp only [isIdentChar, Bool.or_eq_true, decide_eq_true_eq] at h
  simp only [isTypChar, Bool.or_eq_true, decide_eq_true_eq]
  tauto

theorem accStep_class {st : AccState} {c : Char} (h : accStep st c ≠ AccState.dead) :
    isAccChar c = true := by
  cases st <;> simp only [accStep] at h
  case start =>
    split_ifs at h with h1
    · exact identStart_accChar h1
    · exact absurd rfl h
  case insideId =>
    split_ifs at h with h1 h2 h3
    · exact identChar_accChar h1
    · subst h2; decide
    · subst h3; decide
    · exact absurd rfl h
  case afterDot =>
    split_ifs at h with h1
    · exact identStart_accChar h1
    · exact absurd rfl h
  case idxOpen =>
    split_ifs at h with h1
    · exact digit_accChar h1
    · exact absurd rfl h
  case idxDigits =>
    split_ifs at h with h1 h2
    · exact digit_accChar h1
    · subst h2; decide
    · exact absurd rfl h
  case afterSeg =>
    split_ifs at h with h1 h2
    · subst h1; decide
    · subst h2; decide
    · exact absurd rfl h
  case dead => exact absurd rfl h

theorem foldl_accStep_dead (s : List Char) : s.foldl accStep AccState.dead = .dead := by
  induction s with
  | nil => rfl
  | cons c s ih => simp only [List.foldl_cons, accStep]; exact ih

theorem accessor_chars_aux : ∀ (s : List Char) (st : AccState),
    accAccept (s.foldl accStep st) = true → ∀ c ∈ s, isAccChar c = true := by
  intro s
  induction s with
  | nil => intro st h c hc; cases hc
  | cons a s ih =>
    intro st h c hc
    rw [List.foldl_cons] at h
    have hnd : accStep st a ≠ .dead := by
      intro hd
      rw [hd, foldl_accStep_dead] at h
      simp [accAccept] at h
    rcases List.mem_cons.1 hc with h1 | h2
    · subst h1; exact accStep_class hnd
    · exact ih (accStep st a) h c h2

theorem accessor_chars {s : List Char} (h : accessorB s = true) :
    s ≠ [] ∧ ∀ c ∈ s, isAccChar c = true := by
  constructor
  · intro he; subst he; simp [accessorB, accAccept] at h
  · exact accessor_chars_aux s .start h

theorem typStep_class {st : TypState} {c : Char} (h : typStep st c ≠ TypState.dead) :
    isTypChar c = true := by
  cases st <;> simp only [typStep] at h
  case start =>
    split_ifs at h with h1
    · exact identStart_typChar h1
    · exact absurd rfl h
  case firstId =>
    split_ifs at h with h1 h2
    · exact identChar_typChar h1
    · subst h2; decide
    · exact absurd rfl h
  case afterDot =>
    split_ifs at h with h1
    · exact identStart_typChar h1
    · exact absurd rfl h
  case secondId =>
    split_ifs at h with h1
    · exact identChar_typChar h1
    · exact absurd rfl h
  case dead => exact absurd rfl h

theorem foldl_typStep_dead (s : List Char) : s.foldl typStep TypState.dead = .dead := by
  induction s with
  | nil => rfl
  | cons c s ih => simp only [List.foldl_cons, typStep]; exact ih

theorem typeCore_chars_aux : ∀ (s : List Char) (st : TypState),
    typAccept (s.foldl typStep st) = true → ∀ c ∈ s, isTypChar c = true := by
  intro s
  induction s with
  | nil => intro st h c hc; cases hc
  | cons a s ih =>
    intro st h c hc
    rw [List.foldl_cons] at h
    have hnd : typStep st a ≠ .dead := by
      intro hd
      rw [hd, foldl_typStep_dead] at h
      simp [typAccept] at h
    rcases List.mem_cons.1 hc with h1 | h2
    · subst h1; exact typStep_class hnd
    · exact ih (typStep st a) h c h2

theorem typeCore_chars {s : List Char} (h : typeCoreB s = true) :
    s ≠ [] ∧ ∀ c ∈ s, isTypChar c = true := by
  constructor
  · intro he; subst he; simp [typeCoreB, typAccept] at h
  · exact typeCore_chars_aux s .start h

theorem typeB_shape {T : List Char} (h : typeB T = true) :
    ∃ star core, (star = ([] : List Char) ∨ star = ['*']) ∧ core ≠ [] ∧
      (∀ c ∈ core, isTypChar c = true) ∧ T = star ++ core := by
  unfold typeB at h
  split at h
  next hstar =>
    cases T with
    | nil => simp at hstar
    | cons c T' =>
      simp only [List.head?_cons, Option.some.injEq] at hstar
      subst hstar
      simp only [List.tail_cons] at h
      obtain ⟨hne, hall⟩ := typeCore_chars h
      exact ⟨['*'], T', Or.inr rfl, hne, hall, rfl⟩
  next =>
    obtain ⟨hne, hall⟩ := typeCore_chars h
    exact ⟨[], T, Or.inl rfl, hne, hall, (List.nil_append T).symm⟩

theorem verbB_shape {V : List Char} (h : verbB V = true) :
    ∃ vs, vs ≠ ([] : List Char) ∧ (∀ c ∈ vs, isVerbChar c = true) ∧ V = '%' :: vs := by
  cases V with
  | nil => simp [verbB] at h
  | cons c vs =>
    simp only [verbB, Bool.and_eq_true, decide_eq_true_eq, Bool.not_eq_true',
      List.isEmpty_eq_false_iff_exists_mem, List.all_eq_true] at h
    obtain ⟨⟨hc, hne⟩, hall⟩ := h
    subst hc
    refine ⟨vs, ?_, hall, rfl⟩
    intro hvs
    subst hvs
    simp [List.isEmpty] at hne

/-- Interface of a successful parseTemplate run: the wrap mode comes from
the prefix switch, the fields correspond one-to-one to the matches, and
the residual format string is the accumulated first-occurrence
replacement. -/
theorem parseTemplate_ok {pe : List Char → Option GoExpr} {template : List Char}
    {p : ParsedTemplate} (h : parseTemplate pe template = .ok p) :
    p.wrap = (stripWrap template).1 ∧
    List.Forall₂ (FieldOfMatch pe) (findAll (stripWrap template).2) p.fields ∧
    p.fmt = applyRepl (stripWrap template).2 (findAll (stripWrap template).2) := by
  unfold parseTemplate at h
  rcases hsw : stripWrap template with ⟨w, tm⟩
  rw [hsw] at h
  simp only at h
  split at h
  · cases h
  next fields fmtStr heq =>
    cases h
    obtain ⟨nf, hfs, hrel⟩ := processMatches_ok_fields pe _ _ _ _ _ heq
    have hfmt := processMatches_ok_fmt pe _ _ _ _ _ heq
    refine ⟨rfl, ?_, hfmt⟩
    simp only [List.nil_append] at hfs
    rw [← hfs] at hrel
    exact hrel

/-- Interface of the fatal paths of parseTemplate. -/
theorem parseTemplate_fatal {pe : List Char → Option GoExpr} {template : List Char}
    (h : ∃ m ∈ findAll (stripWrap template).2,
      pe m.acc = none ∨ ∃ e, pe m.acc = some e ∧ findExprRoot e = none) :
    ∃ f, parseTemplate pe template = .error f := by
  unfold parseTemplate
  rcases hsw : stripWrap template with ⟨w, tm⟩
  rw [hsw] at h
  obtain ⟨f, hf⟩ := processMatches_error pe (findAll tm) [] tm h
  exact ⟨f, by simp only [hf]⟩

/-! joinComma normal forms, used to state the constructor shapes. -/

theorem joinComma_cons_front (x : List Char) (ys : List (List Char)) :
    joinComma (x :: ys) = x ++ (if ys.isEmpty then [] else ", ".data) ++ joinComma ys := by
  cases ys with
  | nil => simp [joinComma]
  | cons y ys => simp [joinComma]

theorem joinComma_append_last (xs : List (List Char)) (y : List Char) :
    joinComma (xs ++ [y]) =
      joinComma xs ++ (if xs.isEmpty then [] else ", ".data) ++ y := by
  induction xs with
  | nil => simp [joinComma]
  | cons x xs ih =>
    cases xs with
    | nil => simp [joinComma]
    | cons x2 xs2 =>
      show joinComma (x :: ((x2 :: xs2) ++ [y])) = _
      have h1 : joinComma (x :: ((x2 :: xs2) ++ [y])) =
          x ++ (',' :: ' ' :: joinComma ((x2 :: xs2) ++ [y])) := rfl
      rw [h1, ih]
      simp [joinComma]

/-! Claim theorems. -/

/-- C2: parseTemplate assigns exactly one wrap mode per raw template:
Required with the "wrap:" prefix stripped when the template starts with
"wrap:", Forbidden with the "nowrap:" prefix stripped when it starts with
"nowrap:", Optional with the text unchanged otherwise; matching is
case-sensitive and anchored, and a successful parse carries exactly the
mode selected by the prefix switch. -/
theorem C2_wrap_mode_selection (s : List Char) :
    (∀ r, s = "wrap:".data ++ r → stripWrap s = (.MustWrap, r)) ∧
    (∀ r, s = "nowrap:".data ++ r → stripWrap s = (.NoWrap, r)) ∧
    (hasPfx ("wrap:".data) s = false → hasPfx ("nowrap:".data) s = false →
      stripWrap s = (.OptWrap, s)) ∧
    (∀ (pe : List Char → Option GoExpr) (p : ParsedTemplate),
      parseTemplate pe s = .ok p → p.wrap = (stripWrap s).1) := by
  refine ⟨?_, ?_, ?_, ?_⟩
  · intro r h
    subst h
    have hp : hasPfx ("wrap:".data) ("wrap:".data ++ r) = true := by
      simp [hasPfx, List.isPrefixOf_iff_prefix]
    unfold stripWrap
    rw [hp]
    simp
  · intro r h
    subst h
    have hp1 : hasPfx ("wrap:".data) ("nowrap:".data ++ r) = false := rfl
    have hp2 : hasPfx ("nowrap:".data) ("nowrap:".data ++ r) = true := by
      simp [hasPfx, List.isPrefixOf_iff_prefix]
    unfold stripWrap
    rw [hp1, hp2]
    simp
  · intro h1 h2
    unfold stripWrap
    rw [h1, h2]
    simp
  · intro pe p h
    exact (parseTemplate_ok h).1

/-- Witness for C2 at concrete inputs, showing the stripping and the
case-sensitivity of the prefix match. -/
theorem C2_wrap_mode_selection_witness :
    stripWrap ("wrap:abc".data) = (.MustWrap, "abc".data) ∧
    stripWrap ("Wrap:abc".data) = (.OptWrap, "Wrap:abc".data) :=
  ⟨(C2_wrap_mode_selection ("wrap:abc".data)).1 ("abc".data) rfl,
   (C2_wrap_mode_selection ("Wrap:abc".data)).2.2.1 rfl rfl⟩

/-- C8: when the external formatter reports an error, Generator.format
logs warnings and still returns the formatter output unless that output
is empty, in which case the run aborts fatally; without an error the
output is returned silently. -/
theorem C8_format_failure (src : List Char) :
    (src ≠ [] → gformat src true = ⟨true, some src⟩) ∧
    (src = [] → gformat src true = ⟨true, none⟩) ∧
    gformat src false = ⟨false, some src⟩ := by
  refine ⟨?_, ?_, rfl⟩
  · intro h
    unfold gformat
    rw [if_pos rfl, if_neg (by simpa [List.length_eq_zero] using h)]
  · intro h
    subst h
    rfl

/-- Witness for C8 at concrete inputs. -/
theorem C8_format_failure_witness :
    gformat ("x".data) true = ⟨true, some ("x".data)⟩ ∧
    gformat [] true = ⟨true, none⟩ :=
  ⟨(C8_format_failure ("x".data)).1 (by decide),
   (C8_format_failure []).2.1 rfl⟩

/-- C9: the declared-type name lowers or uppers the first rune of the
spec name according to makePub; a non-empty configured suffix is removed
exactly once from the tail when the tail ends with it, and otherwise, or
with an empty suffix, the tail is kept unchanged. -/
theorem C9_struct_naming (g : Generator) (c : Char) (rest : List Char) :
    (g.specSuffix = [] → structName? g (c :: rest) =
      some ((if g.makePub then c.toUpper else c.toLower) :: rest)) ∧
    (∀ pre, g.specSuffix ≠ [] → rest = pre ++ g.specSuffix →
      structName? g (c :: rest) =
        some ((if g.makePub then c.toUpper else c.toLower) :: pre)) ∧
    (g.specSuffix ≠ [] → g.specSuffix.isSuffixOf rest = false →
      structName? g (c :: rest) =
        some ((if g.makePub then c.toUpper else c.toLower) :: rest)) := by
  refine ⟨?_, ?_, ?_⟩
  · intro h
    simp [structName?, h]
  · intro pre hne heq
    subst heq
    have hlen : 0 < g.specSuffix.length := List.length_pos.2 hne
    have hsfx : g.specSuffix.isSuffixOf (pre ++ g.specSuffix) = true := by
      simp [List.isSuffixOf_iff_suffix]
    simp only [structName?, Option.some.injEq, List.cons.injEq]
    refine ⟨trivial, ?_⟩
    rw [if_pos hlen]
    unfold trimSuffix
    rw [hsfx]
    simp [List.take_left]
  · intro hne hnsfx
    have hlen : 0 < g.specSuffix.length := List.length_pos.2 hne
    simp only [structName?, Option.some.injEq, List.cons.injEq]
    refine ⟨trivial, ?_⟩
    rw [if_pos hlen]
    unfold trimSuffix
    rw [hnsfx]
    simp

/-- Witness for C9 at concrete inputs: suffix removal, non-matching
suffix, and the empty suffix. -/
theorem C9_struct_naming_witness :
    structName? ⟨"Err".data, false, false, "Error".data, [], []⟩ ("EOpenError".data) =
      some ("eOpen".data) ∧
    structName? ⟨"Err".data, false, false, "Error".data, [], []⟩ ("EOpen".data) =
      some ("eOpen".data) ∧
    structName? ⟨"Err".data, false, true, [], [], []⟩ ("errOpen".data) =
      some ("ErrOpen".data) :=
  ⟨(C9_struct_naming ⟨"Err".data, false, false, "Error".data, [], []⟩ 'E'
      ("OpenError".data)).2.1 ("Open".data) (by decide) rfl,
   (C9_struct_naming ⟨"Err".data, false, false, "Error".data, [], []⟩ 'E'
      ("Open".data)).2.2 (by decide) (by decide),
   (C9_struct_naming ⟨"Err".data, false, true, [], [], []⟩ 'e'
      ("rrOpen".data)).1 rfl⟩

/-- C10: structName unconditionally reads the first rune of the spec
name, so it is total exactly on non-empty names: the empty name has no
defined result (the index panic, modelled by none), while every
non-empty name yields a result. -/
theorem C10_empty_name_partial (g : Generator) :
    structName? g [] = none ∧
    ∀ (c : Char) (cs : List Char), (structName? g (c :: cs)).isSome = true := by
  exact ⟨rfl, fun c cs => rfl⟩

/-- Counterexample for C4: with makePublic off and spec name ErrOpen the
generated constructor name is newErrOpen, whose first rune is the
lower-case prefix rune, not the upper-cased first rune of the whole
concatenation that the claim describes (which would give NewerrOpen). -/
theorem C4_counterexample :
    structName? ⟨"Err".data, false, false, [], [], []⟩ ("ErrOpen".data) =
      some ("errOpen".data) ∧
    constructorName ⟨"Err".data, false, false, [], [], []⟩ ("errOpen".data) =
      "newErrOpen".data ∧
    constructorNameClaimed ⟨"Err".data, false, false, [], [], []⟩ ("errOpen".data) =
      "NewerrOpen".data ∧
    ("newErrOpen".data : List Char) ≠ "NewerrOpen".data :=
  ⟨rfl, rfl, rfl, by decide⟩

/-- C4 as amended: the constructor name is the fixed prefix (new or New
according to makePublic) concatenated with strings.Title of the
declared-type name; the Title step upper-cases the first rune of the
declared-type-name part, while the first rune of the whole constructor
name follows the prefix casing. -/
theorem C4_constructor_name (g : Generator) (name : List Char) (h : name ≠ []) :
    ∃ s, structName? g name = some s ∧
      constructorName g s =
        (if g.makePub then "New".data else "new".data) ++ stringsTitle s ∧
      (stringsTitle s).head? = s.head?.map Char.toUpper ∧
      (constructorName g s).head? = some (if g.makePub then 'N' else 'n') := by
  match name, h with
  | c :: rest, _ =>
    refine ⟨_, rfl, rfl, rfl, ?_⟩
    cases hg : g.makePub
    · simp [constructorName, hg]
    · simp [constructorName, hg]

/-- Witness for C4 at a concrete input. -/
theorem C4_constructor_name_witness :
    ("ErrOpen".data : List Char) ≠ [] ∧
    ∃ s, structName? ⟨"Err".data, false, false, [], [], []⟩ ("ErrOpen".data) = some s ∧
      constructorName ⟨"Err".data, false, false, [], [], []⟩ s =
        (if (false : Bool) then "New".data else "new".data) ++ stringsTitle s ∧
      (stringsTitle s).head? = s.head?.map Char.toUpper ∧
      (constructorName ⟨"Err".data, false, false, [], [], []⟩ s).head? =
        some (if (false : Bool) then 'N' else 'n') :=
  ⟨by decide, C4_constructor_name ⟨"Err".data, false, false, [], [], []⟩
    ("ErrOpen".data) (by decide)⟩

/-- Counterexample for C5: the matcher accepts the token with accessor
a..b, which does not fit the claimed accessor grammar (a dot must be
followed by an identifier), so the matched language is strictly larger
than the grammar of the claim. -/
theorem C5_counterexample :
    matchTokenAt ("\x7b\x7ba..b int %d\x7d\x7d".data) =
      some (⟨"a..b".data, "int".data, "%d".data⟩, []) ∧
    accessorB ("a..b".data) = false :=
  ⟨rfl, rfl⟩

/-- C5 as amended: the matcher recognizes a strict superset of the
claimed grammar. Every token whose groups fit the claimed grammars is
matched (with exactly its text consumed), and every matched token has its
groups inside the regex character classes; the converse inclusion into
the claimed grammar fails. -/
theorem C5_placeholder_grammar :
    (∀ (A T V k : List Char), accessorB A = true → typeB T = true → verbB V = true →
      matchTokenAt ((Token.mk A T V).full ++ k) = some (Token.mk A T V, k)) ∧
    (∀ (cs : List Char) (t : Token) (rest : List Char),
      matchTokenAt cs = some (t, rest) → t.WF) := by
  constructor
  · intro A T V k hA hT hV
    have hAcc := accessor_chars hA
    have hTyp := typeB_shape hT
    obtain ⟨vs, hvne, hvall, hV2⟩ := verbB_shape hV
    exact matchTokenAt_full ⟨hAcc.1, hAcc.2, hTyp, vs, hvne, hvall, hV2⟩ k
  · intro cs t rest h
    exact (matchTokenAt_split h).2

/-- Witness for C5 at a concrete grammatical token. -/
theorem C5_placeholder_grammar_witness :
    accessorB ("c.Field[0]".data) = true ∧ typeB ("*pkg.MyStruct".data) = true ∧
    verbB ("%#+.3f".data) = true ∧
    matchTokenAt ((Token.mk ("c.Field[0]".data) ("*pkg.MyStruct".data)
        ("%#+.3f".data)).full) =
      some (Token.mk ("c.Field[0]".data) ("*pkg.MyStruct".data) ("%#+.3f".data), []) := by
  refine ⟨rfl, rfl, rfl, ?_⟩
  have h := C5_placeholder_grammar.1 ("c.Field[0]".data) ("*pkg.MyStruct".data)
    ("%#+.3f".data) [] rfl rfl rfl
  simpa using h

/-- Counterexample for C6: on the template
(open open)a int (open open)b c %d(close close)(close close) END
(open open)a int %d(close close), the first-occurrence replacement of the
loop replaces a textual occurrence created by the earlier substitution
instead of the second matched token, so the residual format string is not
the in-place substitution of the matched tokens. -/
theorem C6_counterexample :
    (parseTemplate peRoot
        ("\x7b\x7ba int \x7b\x7bb c %d\x7d\x7d\x7d\x7d END \x7b\x7ba int %d\x7d\x7d".data)).toOption.map
      ParsedTemplate.fmt = some ("%d END \x7b\x7ba int %d\x7d\x7d".data) ∧
    substInline
        (stripWrap
          ("\x7b\x7ba int \x7b\x7bb c %d\x7d\x7d\x7d\x7d END \x7b\x7ba int %d\x7d\x7d".data)).2 =
      "\x7b\x7ba int %d\x7d\x7d END %d".data ∧
    ("%d END \x7b\x7ba int %d\x7d\x7d".data : List Char) ≠
      "\x7b\x7ba int %d\x7d\x7d END %d".data :=
  ⟨rfl, rfl, by decide⟩

/-- C6 as amended: the residual format string is produced by replacing,
for each match in order, the first textual occurrence of its full text
with its bare verb; whenever every character outside the matched tokens
differs from the opening brace, this equals the in-place substitution of
the matched tokens with all other characters preserved. -/
theorem C6_substitution_fidelity (pe : List Char → Option GoExpr) (template : List Char)
    (p : ParsedTemplate) (hclean : scanClean (stripWrap template).2 = true)
    (hok : parseTemplate pe template = .ok p) :
    p.fmt = substInline (stripWrap template).2 := by
  have h3 := (parseTemplate_ok hok).2.2
  rw [h3]
  exact applyRepl_eq_substInline (stripWrap template).2.length _ (Nat.le_refl _) hclean

/-- Witness for C6 on the three-placeholder golden template. -/
theorem C6_substitution_fidelity_witness :
    scanClean (stripWrap ("failed to \x7b\x7bop string %s\x7d\x7d \x7b\x7bfile string %q\x7d\x7d (code \x7b\x7bcode int %d\x7d\x7d)".data)).2 = true ∧
    parseTemplate peRoot
      ("failed to \x7b\x7bop string %s\x7d\x7d \x7b\x7bfile string %q\x7d\x7d (code \x7b\x7bcode int %d\x7d\x7d)".data) =
      .ok ⟨.OptWrap,
        [⟨"op".data, "string".data, "%s".data, "op".data⟩,
         ⟨"file".data, "string".data, "%q".data, "file".data⟩,
         ⟨"code".data, "int".data, "%d".data, "code".data⟩],
        "failed to %s %q (code %d)".data⟩ ∧
    (⟨.OptWrap,
        [⟨"op".data, "string".data, "%s".data, "op".data⟩,
         ⟨"file".data, "string".data, "%q".data, "file".data⟩,
         ⟨"code".data, "int".data, "%d".data, "code".data⟩],
        "failed to %s %q (code %d)".data⟩ : ParsedTemplate).fmt =
      substInline (stripWrap ("failed to \x7b\x7bop string %s\x7d\x7d \x7b\x7bfile string %q\x7d\x7d (code \x7b\x7bcode int %d\x7d\x7d)".data)).2 :=
  ⟨rfl, rfl,
    C6_substitution_fidelity peRoot
      ("failed to \x7b\x7bop string %s\x7d\x7d \x7b\x7bfile string %q\x7d\x7d (code \x7b\x7bcode int %d\x7d\x7d)".data)
      ⟨.OptWrap,
        [⟨"op".data, "string".data, "%s".data, "op".data⟩,
         ⟨"file".data, "string".data, "%q".data, "file".data⟩,
         ⟨"code".data, "int".data, "%d".data, "code".data⟩],
        "failed to %s %q (code %d)".data⟩ rfl rfl⟩

/-- C7: the interpreter resolves each field name through findExprRoot,
which walks selector and index nodes down to the innermost identifier; on
a successful run every field corresponds to its match with the name being
the identifier root of the parsed accessor, and when any accessor fails
to parse or has no identifier root, the run aborts with a fatal error
instead of producing a ParsedTemplate. -/
theorem C7_root_resolution (pe : List Char → Option GoExpr) (template : List Char) :
    (findExprRoot .other = none ∧
     (∀ n, findExprRoot (.ident n) = some n) ∧
     (∀ x a, findExprRoot (.selector x a) = findExprRoot x) ∧
     (∀ x i, findExprRoot (.index x i) = findExprRoot x)) ∧
    (∀ p, parseTemplate pe template = .ok p →
      List.Forall₂ (FieldOfMatch pe) (findAll (stripWrap template).2) p.fields) ∧
    ((∃ m ∈ findAll (stripWrap template).2,
        pe m.acc = none ∨ ∃ e, pe m.acc = some e ∧ findExprRoot e = none) →
      ∃ f, parseTemplate pe template = .error f) := by
  refine ⟨⟨rfl, fun n => rfl, fun x a => rfl, fun x i => rfl⟩, ?_, parseTemplate_fatal⟩
  intro p h
  exact (parseTemplate_ok h).2.1

/-- Witness for C7: a failing external parse on a template with one match
aborts the run. -/
theorem C7_root_resolution_witness :
    (∃ m ∈ findAll (stripWrap ("x \x7b\x7ba int %d\x7d\x7d".data)).2,
      peNone m.acc = none ∨ ∃ e, peNone m.acc = some e ∧ findExprRoot e = none) ∧
    ∃ f, parseTemplate peNone ("x \x7b\x7ba int %d\x7d\x7d".data) = .error f := by
  have hmem : (⟨"a".data, "int".data, "%d".data⟩ : Token) ∈
      findAll (stripWrap ("x \x7b\x7ba int %d\x7d\x7d".data)).2 := by decide
  have hh : ∃ m ∈ findAll (stripWrap ("x \x7b\x7ba int %d\x7d\x7d".data)).2,
      peNone m.acc = none ∨ ∃ e, peNone m.acc = some e ∧ findExprRoot e = none :=
    ⟨⟨"a".data, "int".data, "%d".data⟩, hmem, Or.inl rfl⟩
  exact ⟨hh, (C7_root_resolution peNone ("x \x7b\x7ba int %d\x7d\x7d".data)).2.2 hh⟩

/-- Counterexample for C3: with the compatibility switch on, the per-spec
message formatter of declaration group 3 is still emitted in full: the
generated text for the spec contains the runtime cause branch of the
Error method and contains no panic stub. The stub of the claim lives in
the preamble instead. -/
theorem C3_counterexample :
    ((generate peRoot ⟨"Err".data, true, false, [], [], []⟩
        ⟨"ErrOpen".data, "failed to open file".data⟩).toOption.map
      (fun out => containsSub ("\tif e.cause == nil".data) out)) = some true ∧
    ((generate peRoot ⟨"Err".data, true, false, [], [], []⟩
        ⟨"ErrOpen".data, "failed to open file".data⟩).toOption.map
      (fun out => containsSub ("panic".data) out)) = some false :=
  ⟨rfl, rfl⟩

/-- C3 as amended: with the compatibility switch on, the generated
identity predicate takes the generic failure-value type error instead of
the sentinel type, and in the preamble the sentinel type receives a panic
stub for its message-formatting method in place of the chain-search
operation; the per-spec message formatter of group 3 is emitted
unchanged. -/
theorem C3_compat_is (pe : List Char → Option GoExpr) (g : Generator) (spec : ErrorSpec)
    (s : List Char) (t : ParsedTemplate)
    (hs : structName? g spec.name = some s)
    (ht : parseTemplate pe spec.template = .ok t) :
    emitIsMethod { g with compatIs := true } s spec.name =
      "\nfunc (*".data ++ s ++ ") Is(e error) bool \x7b return e == ".data ++
        spec.name ++ " \x7d\n\n".data ∧
    emitIsMethod { g with compatIs := false } s spec.name =
      "\nfunc (*".data ++ s ++ ") Is(e ".data ++ g.typeName ++
        ") bool \x7b return e == ".data ++ spec.name ++ " \x7d\n\n".data ∧
    headerIsSection { g with compatIs := true } =
      "func (".data ++ g.typeName ++
        ") Error() string \x7b panic(\"Should not be called\") \x7d\n\n".data ∧
    generate pe { g with compatIs := true } spec =
      .ok (emitStructDecl s t ++ emitConstructor { g with compatIs := true } s t ++
        emitErrorMethod s t ++ emitWrapMethod s t.wrap ++
        emitIsMethod { g with compatIs := true } s spec.name) := by
  refine ⟨rfl, rfl, rfl, ?_⟩
  unfold generate
  have hs' : structName? { g with compatIs := true } spec.name = some s := hs
  simp only [hs', ht]

/-- Witness for C3 at a concrete spec. -/
theorem C3_compat_is_witness :
    structName? ⟨"Err".data, false, false, [], [], []⟩ ("ErrOpen".data) =
      some ("errOpen".data) ∧
    parseTemplate peRoot ("failed to open file".data) =
      .ok ⟨.OptWrap, [], "failed to open file".data⟩ ∧
    (emitIsMethod { (⟨"Err".data, false, false, [], [], []⟩ : Generator) with
        compatIs := true } ("errOpen".data) ("ErrOpen".data) =
      "\nfunc (*".data ++ "errOpen".data ++ ") Is(e error) bool \x7b return e == ".data ++
        "ErrOpen".data ++ " \x7d\n\n".data ∧
    emitIsMethod { (⟨"Err".data, false, false, [], [], []⟩ : Generator) with
        compatIs := false } ("errOpen".data) ("ErrOpen".data) =
      "\nfunc (*".data ++ "errOpen".data ++ ") Is(e ".data ++ "Err".data ++
        ") bool \x7b return e == ".data ++ "ErrOpen".data ++ " \x7d\n\n".data ∧
    headerIsSection { (⟨"Err".data, false, false, [], [], []⟩ : Generator) with
        compatIs := true } =
      "func (".data ++ "Err".data ++
        ") Error() string \x7b panic(\"Should not be called\") \x7d\n\n".data ∧
    generate peRoot { (⟨"Err".data, false, false, [], [], []⟩ : Generator) with
        compatIs := true } ⟨"ErrOpen".data, "failed to open file".data⟩ =
      .ok (emitStructDecl ("errOpen".data) ⟨.OptWrap, [], "failed to open file".data⟩ ++
        emitConstructor { (⟨"Err".data, false, false, [], [], []⟩ : Generator) with
          compatIs := true } ("errOpen".data) ⟨.OptWrap, [], "failed to open file".data⟩ ++
        emitErrorMethod ("errOpen".data) ⟨.OptWrap, [], "failed to open file".data⟩ ++
        emitWrapMethod ("errOpen".data) WrapMode.OptWrap ++
        emitIsMethod { (⟨"Err".data, false, false, [], [], []⟩ : Generator) with
          compatIs := true } ("errOpen".data) ("ErrOpen".data))) :=
  ⟨rfl, rfl,
    C3_compat_is peRoot ⟨"Err".data, false, false, [], [], []⟩
      ⟨"ErrOpen".data, "failed to open file".data⟩ ("errOpen".data)
      ⟨.OptWrap, [], "failed to open file".data⟩ rfl rfl⟩

/-- Bridges between the loop-printed comma forms of the source and the
joinComma normal forms used in the statement of the wrap-mode table. -/
theorem joinComma_snoc_err (fields : List Field) :
    joinComma ((fields.map fun f => f.name ++ ' ' :: f.typ) ++ ["err error".data]) =
    joinComma (fields.map fun f => f.name ++ ' ' :: f.typ) ++
      ((if fields.length > 0 then ", ".data else []) ++ "err error".data) := by
  rw [joinComma_append_last]
  cases fields <;> simp

theorem joinComma_cons_ew (ew : List Char) (fields : List Field) :
    joinComma (ew :: fields.map fun f => f.name) =
    ew ++ ((if fields.length > 0 then ", ".data else []) ++
      joinComma (fields.map fun f => f.name)) := by
  rw [joinComma_cons_front]
  cases fields <;> simp

/-- C1: the wrap-mode table of the declaration synthesizer. For Forbidden
(NoWrap) the struct has no cause-holder member, the constructor takes and
assigns only the fields, the Error method returns the plain Sprintf of
the residual format string, and no Wrap method is emitted. For Optional
(OptWrap) the struct embeds _errWrap, the constructor takes only the
fields and initializes the holder to nil, the Error method branches at
runtime on cause presence appending a cause segment only when attached,
and the Wrap method is emitted. For Required (MustWrap) the constructor
takes one trailing err error parameter that initializes the holder, the
Error method unconditionally appends the cause segment with no no-cause
branch, and the Wrap method is emitted. -/
theorem C1_wrap_mode_table (g : Generator) (s : List Char) (t : ParsedTemplate) :
    (t.wrap = .NoWrap →
      emitStructDecl s t =
        "type ".data ++ s ++ " struct \x7b\n".data ++
        (t.fields.flatMap fun f => '\t' :: (f.name ++ ' ' :: f.typ ++ ['\n'])) ++
        "\x7d\n\n".data ∧
      emitConstructor g s t =
        "func ".data ++ constructorName g s ++ ['('] ++
        joinComma (t.fields.map fun f => f.name ++ ' ' :: f.typ) ++
        ") *".data ++ s ++ " \x7b\n\treturn &".data ++ s ++ ['\x7b'] ++
        joinComma (t.fields.map fun f => f.name) ++ "\x7d\n\x7d\n\n".data ∧
      emitErrorMethod s t =
        "func (e *".data ++ s ++ ") Error() string \x7b\n".data ++
        "\treturn fmt.Sprintf(\"".data ++ t.fmt ++ ['\"'] ++
        (t.fields.flatMap fun f => ", e.".data ++ f.val) ++ ")\n".data ++
        "\x7d\n".data ∧
      emitWrapMethod s t.wrap = []) ∧
    (t.wrap = .OptWrap →
      emitStructDecl s t =
        "type ".data ++ s ++ " struct \x7b\n".data ++ "\t_errWrap\n".data ++
        (t.fields.flatMap fun f => '\t' :: (f.name ++ ' ' :: f.typ ++ ['\n'])) ++
        "\x7d\n\n".data ∧
      emitConstructor g s t =
        "func ".data ++ constructorName g s ++ ['('] ++
        joinComma (t.fields.map fun f => f.name ++ ' ' :: f.typ) ++
        ") *".data ++ s ++ " \x7b\n\treturn &".data ++ s ++ ['\x7b'] ++
        joinComma ("_errWrap\x7bnil\x7d".data :: t.fields.map fun f => f.name) ++
        "\x7d\n\x7d\n\n".data ∧
      emitErrorMethod s t =
        "func (e *".data ++ s ++ ") Error() string \x7b\n".data ++
        "\tif e.cause == nil \x7b\n\t\treturn fmt.Sprintf(\"".data ++ t.fmt ++ ['\"'] ++
        (t.fields.flatMap fun f => ", e.".data ++ f.val) ++
        ")\n\t\x7d\n\treturn fmt.Sprintf(\"".data ++ t.fmt ++ ": %v\", ".data ++
        (t.fields.flatMap fun f => "e.".data ++ f.val ++ ", ".data) ++
        "e.cause)\n".data ++ "\x7d\n".data ∧
      emitWrapMethod s t.wrap =
        "\nfunc (e *".data ++ s ++
        ") Wrap(cause error) error \x7b\n\te.cause = cause\n\treturn e\n\x7d\n".data) ∧
    (t.wrap = .MustWrap →
      emitStructDecl s t =
        "type ".data ++ s ++ " struct \x7b\n".data ++ "\t_errWrap\n".data ++
        (t.fields.flatMap fun f => '\t' :: (f.name ++ ' ' :: f.typ ++ ['\n'])) ++
        "\x7d\n\n".data ∧
      emitConstructor g s t =
        "func ".data ++ constructorName g s ++ ['('] ++
        joinComma ((t.fields.map fun f => f.name ++ ' ' :: f.typ) ++
          ["err error".data]) ++
        ") *".data ++ s ++ " \x7b\n\treturn &".data ++ s ++ ['\x7b'] ++
        joinComma ("_errWrap\x7berr\x7d".data :: t.fields.map fun f => f.name) ++
        "\x7d\n\x7d\n\n".data ∧
      emitErrorMethod s t =
        "func (e *".data ++ s ++ ") Error() string \x7b\n".data ++
        "\treturn fmt.Sprintf(\"".data ++ t.fmt ++ ": %v\", ".data ++
        (t.fields.flatMap fun f => "e.".data ++ f.val ++ ", ".data) ++
        "e.cause)\n".data ++ "\x7d\n".data ∧
      emitWrapMethod s t.wrap =
        "\nfunc (e *".data ++ s ++
        ") Wrap(cause error) error \x7b\n\te.cause = cause\n\treturn e\n\x7d\n".data) := by
  obtain ⟨w, fields, fmt⟩ := t
  refine ⟨?_, ?_, ?_⟩ <;> intro hw <;> simp only at hw <;> subst hw
  · refine ⟨?_, ?_, ?_, rfl⟩
    · simp [emitStructDecl]
    · cases fields with
      | nil => simp [emitConstructor, joinComma]
      | cons f fs => simp [emitConstructor]
    · simp [emitErrorMethod]
  · refine ⟨?_, ?_, ?_, ?_⟩
    · simp [emitStructDecl]
    · rw [joinComma_cons_ew]
      simp [emitConstructor]
    · simp [emitErrorMethod]
    · simp [emitWrapMethod]
  · refine ⟨?_, ?_, ?_, ?_⟩
    · simp [emitStructDecl]
    · rw [joinComma_snoc_err, joinComma_cons_ew]
      simp [emitConstructor]
    · simp [emitErrorMethod]
    · simp [emitWrapMethod]

/-- Witness for C1 on the three modes at concrete templates. -/
theorem C1_wrap_mode_table_witness :
    (⟨.NoWrap, [], "some error".data⟩ : ParsedTemplate).wrap = .NoWrap ∧
    (⟨.MustWrap, [], "some error".data⟩ : ParsedTemplate).wrap = .MustWrap ∧
    emitWrapMethod ("errSome".data) (⟨.NoWrap, [], "some error".data⟩ : ParsedTemplate).wrap = [] ∧
    emitConstructor ⟨"Err".data, false, false, [], [], []⟩ ("errSome".data)
        ⟨.MustWrap, [], "some error".data⟩ =
      "func ".data ++ constructorName ⟨"Err".data, false, false, [], [], []⟩ ("errSome".data) ++
        ['('] ++ joinComma [("err error".data)] ++
        ") *".data ++ "errSome".data ++ " \x7b\n\treturn &".data ++ "errSome".data ++
        ['\x7b'] ++ joinComma ["_errWrap\x7berr\x7d".data] ++ "\x7d\n\x7d\n\n".data := by
  refine ⟨rfl, rfl, ?_, ?_⟩
  · exact (C1_wrap_mode_table ⟨"Err".data, false, false, [], [], []⟩ ("errSome".data)
      ⟨.NoWrap, [], "some error".data⟩).1 rfl |>.2.2.2
  · have h := (C1_wrap_mode_table ⟨"Err".data, false, false, [], [], []⟩ ("errSome".data)
      ⟨.MustWrap, [], "some error".data⟩).2.2 rfl |>.2.1
    simpa using h

end Gorror
